import Mathlib

/-!
Verification of the fan-out/aggregation engine of the research-agent server
(`src/server.js`).  The development shallowly embeds:

* `clamp` (line 28) — pagination sanitizing;
* `normalizeRangeInput` (line 330) and the `/\d+\s*,\s*\d+/` filter
  (line 390) — the Range Normalizer;
* the default range list (line 386) and the `inputRanges` selection
  (line 385);
* the payload transformation of `searchForRange` (lines 344–357) — the
  Partition Query Builder;
* the per-partition resolution logic of the `/api/search_by_ranges`
  worker body (lines 400–419), with the remote Apollo API abstracted as
  an oracle `Nat → FetchOut` giving the remote response (or thrown
  error) for each requested page number;
* the worker pool (lines 393–422) as a small-step transition system:
  the shared cursor `idx`, the `results` array, and `min 4 n` workers.
  In the source each `idx++` claim and each `results[i] = ...` write is
  a synchronous step of the Node event loop; the awaited fetches in
  between touch no shared state, so the resolution of a claimed
  partition is collapsed into a single `finish` step whose value is the
  deterministic function of the fetch oracle computed by
  `resolvePartition`.

JavaScript numbers are modelled as `Int` (the claims under check do not
depend on fractional values); a value that is absent or not a number
(`NaN` after `Number(...)` coercion) is modelled as `none : Option Int`.
Records (organization objects) are opaque pass-through values, modelled
as `Nat` identifiers.
-/

/-- `clamp(value, min, max, fallback)` from `server.js` line 28: returns
`fallback` when the value is not a number, otherwise
`Math.min(Math.max(value, min), max)`. -/
def clamp (value : Option Int) (lo hi fallback : Int) : Int :=
  match value with
  | none => fallback
  | some v => min (max v lo) hi

/-- The whitespace test used to model `String.prototype.trim` and the
regex class `\s` (restricted to the common ASCII whitespace). -/
def jsWs (c : Char) : Bool :=
  c = ' ' || c = '\t' || c = '\n' || c = '\r'

/-- `s.split(',')` on the character list: split at every comma;
`""` splits to `[""]`, as in JavaScript. -/
def splitCommaChars : List Char → List (List Char)
  | [] => [[]]
  | c :: rest =>
    if c = ',' then [] :: splitCommaChars rest
    else
      match splitCommaChars rest with
      | [] => [[c]]
      | g :: gs => (c :: g) :: gs

/-- `s.split(',')` as used by `normalizeRangeInput` (line 332). -/
def jsSplitComma (s : String) : List String :=
  (splitCommaChars s.data).map fun cs => String.mk cs

/-- `s.trim()`: strip leading and trailing whitespace. -/
def jsTrim (s : String) : String :=
  String.mk (((s.data.dropWhile jsWs).reverse.dropWhile jsWs).reverse)

/-- After the leading `\d` of a candidate match of `/\d+\s*,\s*\d+/` has
been seen, check the remainder: more digits, optional whitespace, a
comma, optional whitespace, and one more digit. -/
def rangeReAfterDigit (cs : List Char) : Bool :=
  match (cs.dropWhile Char.isDigit).dropWhile jsWs with
  | ',' :: r =>
    match r.dropWhile jsWs with
    | d :: _ => d.isDigit
    | [] => false
  | _ => false

/-- Unanchored scan for `/\d+\s*,\s*\d+/`: try every start position. -/
def rangeReScan : List Char → Bool
  | [] => false
  | c :: rest => (c.isDigit && rangeReAfterDigit rest) || rangeReScan rest

/-- The test `/\d+\s*,\s*\d+/.test(s)` applied in the `.filter` of
`server.js` line 390. -/
def rangeReTest (s : String) : Bool :=
  rangeReScan s.data

/-- A caller-supplied range descriptor (one element of the `ranges`
array).  `rstr` is a JavaScript string; `rarr` a JavaScript array whose
elements are given by their template-literal string coercion; `robj` an
object, with flags recording whether the keys `min`/`max` are present
and the string coercions of their values; `rother` any other value
(number, boolean, null, ...). -/
inductive RangeDesc where
  | rstr (s : String)
  | rarr (elems : List String)
  | robj (hasMin hasMax : Bool) (minS maxS : String)
  | rother
deriving DecidableEq

/-- `normalizeRangeInput` from `server.js` lines 330–342: a string is
split on commas and, when it has exactly two parts, rebuilt from the
trimmed parts; a two-element array or a `min`/`max` object is joined
with a comma; everything else yields `null` (`none`). -/
def normalizeRangeInput : RangeDesc → Option String
  | .rstr s =>
    match (jsSplitComma s).map jsTrim with
    | [a, b] => some (a ++ "," ++ b)
    | _ => none
  | .rarr elems =>
    match elems with
    | [a, b] => some (a ++ "," ++ b)
    | _ => none
  | .robj hasMin hasMax minS maxS =>
    if hasMin && hasMax then some (minS ++ "," ++ maxS) else none
  | .rother => none

/-- One descriptor's contribution to the normalized list: the
composition of `.map(normalizeRangeInput)` with the
`typeof s === 'string' && /\d+\s*,\s*\d+/.test(s)` filter of
`server.js` lines 388–390. -/
def keepRange (d : RangeDesc) : Option String :=
  match normalizeRangeInput d with
  | some s => if rangeReTest s then some s else none
  | none => none

/-- The normalized range list produced from a descriptor list
(`normalized`, `server.js` lines 388–390). -/
def normalizeRangeList (ds : List RangeDesc) : List String :=
  ds.filterMap keepRange

/-- The built-in default range list (`server.js` lines 385–387). -/
def defaultRanges : List String :=
  ["1,10", "11,50", "51,200", "201,500", "501,1000",
   "1001,5000", "5001,10000", "10001,20000"]

/-- The `ranges` value of a request: a JavaScript array of descriptors,
some other (non-array) value, or absent. -/
inductive RangesField where
  | rfArr (xs : List RangeDesc)
  | rfOther
  | rfMissing
deriving DecidableEq

/-- `inputRanges` from `server.js` line 385:
`Array.isArray(ranges) && ranges.length > 0 ? ranges : [defaults]`. -/
def inputRangesOf : RangesField → List RangeDesc
  | .rfArr xs =>
    if xs.length > 0 then xs else defaultRanges.map RangeDesc.rstr
  | .rfOther => defaultRanges.map RangeDesc.rstr
  | .rfMissing => defaultRanges.map RangeDesc.rstr

/-- The normalized partition list for a request. -/
def normalizedOf (rf : RangesField) : List String :=
  normalizeRangeList (inputRangesOf rf)

/-- The `prompt` value of a request: a string, some non-string value, or
absent. -/
inductive PromptField where
  | pstr (s : String)
  | pother
  | pmissing
deriving DecidableEq

/-- The validation `!prompt || typeof prompt !== 'string'` of
`server.js` line 375 (an empty string is falsy, hence invalid). -/
def promptValid : PromptField → Bool
  | .pstr s => !(s == "")
  | .pother => false
  | .pmissing => false

/-- The nested `query` sub-object of an Apollo payload: the fields
`searchForRange` touches, plus the remaining fields as an opaque
association list. -/
structure SubQuery where
  organization_num_employees_min : Option Int
  organization_num_employees_max : Option Int
  organization_num_employees_ranges : Option (List String)
  rest : List (String × String)
deriving DecidableEq

/-- An Apollo search payload (`BaseQuery`): the fields the engine reads
or writes, plus the remaining fields as an opaque association list. -/
structure Payload where
  page : Option Int
  per_page : Option Int
  organization_num_employees_min : Option Int
  organization_num_employees_max : Option Int
  organization_num_employees_ranges : Option (List String)
  query : Option SubQuery
  rest : List (String × String)
deriving DecidableEq

/-- The payload transformation of `searchForRange` (`server.js` lines
344–357).  The source first deep-copies `basePayload` via a JSON
round-trip — on the plain data modelled here that copy is the identity,
and this definition is a pure function of `basePayload`, so the base is
never mutated.  Then: the top-level min/max employee fields are
deleted; if a nested `query` object exists its min/max fields are
deleted; the ranges field is set to `[rangeString]` at top level and in
the (possibly freshly created) nested query; finally `page` /
`per_page` are overwritten when the overrides are numbers. -/
def searchForRangePayload (basePayload : Payload) (rangeString : String)
    (pageOverride perPageOverride : Option Int) : Payload :=
  let q0 : Option SubQuery :=
    match basePayload.query with
    | some q =>
      some { q with organization_num_employees_min := none,
                    organization_num_employees_max := none }
    | none => none
  let q1 : SubQuery :=
    { (q0.getD ⟨none, none, none, []⟩) with
        organization_num_employees_ranges := some [rangeString] }
  { basePayload with
      organization_num_employees_min := none,
      organization_num_employees_max := none,
      organization_num_employees_ranges := some [rangeString],
      query := some q1,
      page := match pageOverride with
              | some p => some p
              | none => basePayload.page,
      per_page := match perPageOverride with
                  | some p => some p
                  | none => basePayload.per_page }

/-- Records (organization objects) are opaque pass-through values. -/
abbrev Record := Nat

/-- The remote API's behaviour for one page request: either a response
(with optional `pagination.total_entries`, optional
`pagination.total_pages`, and an optional `organizations` array), or a
thrown error carrying `err.response?.status` (absent on transport
errors) and the error detail. -/
inductive FetchOut where
  | ok (total_entries : Option Int) (total_pages : Option Int)
       (organizations : Option (List Record))
  | fail (status : Option Int) (details : String)
deriving DecidableEq

/-- Whether a remote call succeeds (does not throw). -/
def FetchOut.isOk : FetchOut → Bool
  | .ok _ _ _ => true
  | .fail _ _ => false

/-- `err.response?.status || 500` (`server.js` line 416): absent or
zero status becomes 500. -/
def effStatus : Option Int → Int
  | none => 500
  | some v => if v = 0 then 500 else v

/-- `Number(first.pagination?.total_pages || 1)` (`server.js` line
404): absent or zero becomes 1. -/
def totalPagesOf : Option Int → Int
  | none => 1
  | some t => if t = 0 then 1 else t

/-- One entry of the `groups` array (`results[i]`, `server.js` lines
414 and 418): a success `{ range, total_entries, organizations }` or a
failure `{ range, error: true, status, details, total_entries: 0,
organizations: [] }`. -/
inductive Outcome where
  | success (range : String) (total_entries : Int)
            (organizations : List Record)
  | failure (range : String) (status : Int) (details : String)
deriving DecidableEq

/-- The `range` label carried by an outcome. -/
def Outcome.rangeLabel : Outcome → String
  | .success r _ _ => r
  | .failure r _ _ => r

/-- Whether an outcome is a success. -/
def Outcome.isSuccess : Outcome → Bool
  | .success _ _ _ => true
  | .failure _ _ _ => false

/-- Whether an outcome is a failure (`error: true`). -/
def Outcome.isFailure : Outcome → Bool
  | .success _ _ _ => false
  | .failure _ _ _ => true

/-- The organizations carried by an outcome (a failed outcome carries
`organizations: []`). -/
def Outcome.orgs : Outcome → List Record
  | .success _ _ os => os
  | .failure _ _ _ => []

/-- The exhaustive-fetch loop `for (let p = 2; p <= totalPages; p++)`
(`server.js` lines 406–411), with `fuel` remaining iterations and `p`
the next page: each later page is fetched in order; a non-empty
`organizations` array is appended to the accumulator; a thrown error
aborts the loop (the `catch` is at the partition boundary). -/
def fetchLoop (f : Nat → FetchOut) : Nat → Nat → List Record →
    Except (Option Int × String) (List Record)
  | _, 0, acc => Except.ok acc
  | p, fuel + 1, acc =>
    match f p with
    | .fail st msg => Except.error (st, msg)
    | .ok _ _ orgs =>
      let os := orgs.getD []
      fetchLoop f (p + 1) fuel (if os.length > 0 then acc ++ os else acc)

/-- Resolution of one partition by a worker (`server.js` lines
400–419), given the fetch oracle `f` for that partition's pages.  Page
1 is fetched first; its `total_entries` (with the
`searchForRange` fallback of line 360: length of the returned
organizations, or 0 when that field is absent) becomes the group's
total; when `fetch_all` is set and the reported `total_pages` exceeds
1, the remaining pages are fetched sequentially; any thrown error turns
the whole partition into a failed outcome; otherwise the accumulated
records — truncated to `safePerPage` unless `fetch_all` — form a
successful outcome. -/
def resolvePartition (f : Nat → FetchOut) (r : String) (fetch_all : Bool)
    (safePerPage : Nat) : Outcome :=
  match f 1 with
  | .fail st msg => .failure r (effStatus st) msg
  | .ok te tp orgs =>
    let firstOrgs := orgs.getD []
    let total : Int :=
      match te with
      | some t => t
      | none => match orgs with
                | some l => (l.length : Int)
                | none => 0
    let totalPages := totalPagesOf tp
    let fetched :=
      if fetch_all = true ∧ 1 < totalPages then
        fetchLoop f 2 (totalPages - 1).toNat firstOrgs
      else
        Except.ok firstOrgs
    match fetched with
    | .error e => .failure r (effStatus e.1) e.2
    | .ok allOrgs =>
      .success r total (if fetch_all then allOrgs else allOrgs.take safePerPage)

/-- The fixed concurrency limit (`const concurrency = 4`, `server.js`
line 395). -/
def concurrencyLimit : Nat := 4

/-- The outcome the worker claiming index `i` will store, for a
request with fetch oracle `f` (indexed by partition, then page),
normalized ranges `norm`, and flags `fa` / `pp`. -/
def engineResolve (f : Nat → Nat → FetchOut) (norm : List String)
    (fa : Bool) (pp : Nat) (i : Nat) : Outcome :=
  resolvePartition (f i) (norm.getD i "") fa pp

/-- The phase of one worker of the pool: about to test the loop
condition, resolving a claimed partition index, or returned. -/
inductive WStatus where
  | idle
  | working (i : Nat)
  | done
deriving DecidableEq

/-- The shared state of the worker pool (`server.js` lines 393–422):
the claim cursor `idx`, the `results` array, and the workers. -/
structure PoolState where
  cursor : Nat
  results : List (Option Outcome)
  workers : List WStatus
deriving DecidableEq

/-- The pool's initial state: cursor 0, `n` unwritten result slots, and
`Math.min(concurrency, n)` idle workers (`server.js` line 422). -/
def poolInit (n : Nat) : PoolState :=
  ⟨0, List.replicate n none, List.replicate (min concurrencyLimit n) WStatus.idle⟩

/-- Worker `w` currently holds partition index `i`. -/
def claimedBy (s : PoolState) (w i : Nat) : Prop :=
  s.workers.get? w = some (WStatus.working i)

/-- One synchronous step of the pool.  `claim`: an idle worker tests
`idx < normalized.length`, and claims `i = idx++` (a single synchronous
slice of the event loop).  `halt`: an idle worker tests the condition,
finds the cursor exhausted, and returns.  `finish`: a working worker's
awaited fetches complete and it stores its outcome at its claimed
index; since the fetches read only the oracle, the stored value is
`resolve i` regardless of interleaving. -/
inductive PoolStep (n : Nat) (resolve : Nat → Outcome) :
    PoolState → PoolState → Prop where
  | claim (s : PoolState) (w : Nat)
      (hw : s.workers.get? w = some WStatus.idle) (hc : s.cursor < n) :
      PoolStep n resolve s
        ⟨s.cursor + 1, s.results, s.workers.set w (WStatus.working s.cursor)⟩
  | halt (s : PoolState) (w : Nat)
      (hw : s.workers.get? w = some WStatus.idle) (hc : n ≤ s.cursor) :
      PoolStep n resolve s
        ⟨s.cursor, s.results, s.workers.set w WStatus.done⟩
  | finish (s : PoolState) (w i : Nat)
      (hw : s.workers.get? w = some (WStatus.working i)) :
      PoolStep n resolve s
        ⟨s.cursor, s.results.set i (some (resolve i)), s.workers.set w WStatus.idle⟩

/-- Pool states reachable from the initial state under some
interleaving. -/
def PoolReach (n : Nat) (resolve : Nat → Outcome) (s : PoolState) : Prop :=
  Relation.ReflTransGen (PoolStep n resolve) (poolInit n) s

/-- All workers have returned: `Promise.all` has resolved. -/
def PoolDone (s : PoolState) : Prop :=
  ∀ w ∈ s.workers, w = WStatus.done

/-- How many partitions are in flight (claimed but unfinished). -/
def inFlight (s : PoolState) : Nat :=
  (s.workers.filter fun w =>
    match w with
    | WStatus.working _ => true
    | _ => false).length

/-- The `groups` array of the response (`server.js` line 433): the
written entries of `results` in index order. -/
def groupsOf (s : PoolState) : List Outcome :=
  s.results.filterMap id

/-- `safePage` (`server.js` line 378). -/
def safePageOf (page : Option Int) : Int :=
  clamp page 1 500 1

/-- `safePerPage` (`server.js` line 379). -/
def safePerPageOf (per_page : Option Int) : Int :=
  clamp per_page 1 100 25

/-- Reading an index of a list after a `set`: either it is the written
index (which must then be in bounds) or the value is unchanged. -/
theorem get?_set_cases {α : Type} {l : List α} {i j : Nat} {a b : α}
    (h : (l.set i a).get? j = some b) :
    (j = i ∧ b = a ∧ i < l.length) ∨ (j ≠ i ∧ l.get? j = some b) := by
  by_cases hij : j = i
  · subst hij
    by_cases hl : j < l.length
    · rw [List.get?_set_eq_of_lt a hl] at h
      exact Or.inl ⟨rfl, (Option.some.inj h).symm, hl⟩
    · have hlen : (l.set j a).length ≤ j := by
        rw [List.length_set]; omega
      rw [List.get?_len_le hlen] at h
      cases h
  · exact Or.inr ⟨hij, by rwa [List.get?_set_ne a l fun he => hij he.symm] at h⟩

/-- The inductive invariant of the worker pool: result-array and worker
counts are fixed; the cursor never passes the partition count; slots at
or past the cursor are untouched and unclaimed; every claim is below
the cursor; every slot below the cursor is either already written with
its partition's outcome (and unclaimed) or still unwritten and claimed
by exactly one worker; and a worker returns only once the cursor is
exhausted. -/
structure PoolInv (n : Nat) (resolve : Nat → Outcome) (s : PoolState) : Prop where
  res_len : s.results.length = n
  wk_len : s.workers.length = min concurrencyLimit n
  cursor_le : s.cursor ≤ n
  fresh : ∀ i, s.cursor ≤ i → i < n → s.results.get? i = some none
  claim_lt : ∀ w i, claimedBy s w i → i < s.cursor
  claimed : ∀ i, i < s.cursor →
    (s.results.get? i = some (some (resolve i)) ∧ ∀ w, ¬ claimedBy s w i) ∨
    (s.results.get? i = some none ∧
      ∃ w, claimedBy s w i ∧ ∀ w2, claimedBy s w2 i → w2 = w)
  done_cursor : (∃ w, s.workers.get? w = some WStatus.done) → s.cursor = n

/-- The initial pool state satisfies the invariant. -/
theorem poolInv_init (n : Nat) (resolve : Nat → Outcome) :
    PoolInv n resolve (poolInit n) := by
  constructor
  · exact List.length_replicate n none
  · exact List.length_replicate _ _
  · exact Nat.zero_le n
  · intro i _ hi
    simp [poolInit, List.get?_eq_getElem?, List.getElem?_replicate, hi]
  · intro w i hcl
    have := List.get?_mem hcl
    rcases List.eq_of_mem_replicate this with h
    cases h
  · intro i hi
    cases hi
  · rintro ⟨w, hw⟩
    have := List.get?_mem hw
    rcases List.eq_of_mem_replicate this with h
    cases h

/-- Each pool step preserves the invariant. -/
theorem poolInv_step {n : Nat} {resolve : Nat → Outcome} {s s' : PoolState}
    (hst : PoolStep n resolve s s') (hinv : PoolInv n resolve s) :
    PoolInv n resolve s' := by
  cases hst with
  | claim w hw hc =>
    have hwlt : w < s.workers.length := by
      rcases List.get?_eq_some.mp hw with ⟨h, _⟩
      exact h
    refine ⟨hinv.res_len, ?_, ?_, ?_, ?_, ?_, ?_⟩ <;> dsimp only
    · rw [List.length_set]
      exact hinv.wk_len
    · omega
    · intro i hi hin
      exact hinv.fresh i (by omega) hin
    · intro w2 i hcl
      have hcl2 : (s.workers.set w (WStatus.working s.cursor)).get? w2 =
          some (WStatus.working i) := hcl
      rcases get?_set_cases hcl2 with ⟨_, hv, _⟩ | ⟨_, hv⟩
      · cases hv
        omega
      · have := hinv.claim_lt w2 i hv
        omega
    · intro i hi
      by_cases hic : i < s.cursor
      · rcases hinv.claimed i hic with ⟨hres, hnone⟩ | ⟨hres, w0, hw0, huniq⟩
        · refine Or.inl ⟨hres, ?_⟩
          intro w2 hcl
          have hcl2 : (s.workers.set w (WStatus.working s.cursor)).get? w2 =
              some (WStatus.working i) := hcl
          rcases get?_set_cases hcl2 with ⟨_, hv, _⟩ | ⟨_, hv⟩
          · cases hv
            omega
          · exact hnone w2 hv
        · refine Or.inr ⟨hres, w0, ?_, ?_⟩
          · have hne : w0 ≠ w := by
              intro he
              have h2 : s.workers.get? w = some (WStatus.working i) := he ▸ hw0
              rw [hw] at h2
              cases h2
            show (s.workers.set w (WStatus.working s.cursor)).get? w0 =
              some (WStatus.working i)
            exact (List.get?_set_ne _ _ fun he => hne he.symm).trans hw0
          · intro w2 hcl
            have hcl2 : (s.workers.set w (WStatus.working s.cursor)).get? w2 =
                some (WStatus.working i) := hcl
            rcases get?_set_cases hcl2 with ⟨_, hv, _⟩ | ⟨_, hv⟩
            · cases hv
              omega
            · exact huniq w2 hv
      · have hie : i = s.cursor := by omega
        refine Or.inr ⟨hinv.fresh i (by omega) (by omega), w, ?_, ?_⟩
        · show (s.workers.set w (WStatus.working s.cursor)).get? w =
            some (WStatus.working i)
          rw [hie]
          exact List.get?_set_eq_of_lt _ hwlt
        · intro w2 hcl
          have hcl2 : (s.workers.set w (WStatus.working s.cursor)).get? w2 =
              some (WStatus.working i) := hcl
          rcases get?_set_cases hcl2 with ⟨he, _, _⟩ | ⟨_, hv⟩
          · exact he
          · have := hinv.claim_lt w2 i hv
            omega
    · rintro ⟨w2, hw2⟩
      rcases get?_set_cases hw2 with ⟨_, hv, _⟩ | ⟨_, hv⟩
      · cases hv
      · have := hinv.done_cursor ⟨w2, hv⟩
        omega
  | halt w hw hc =>
    have hcn : s.cursor = n := by
      have := hinv.cursor_le
      omega
    refine ⟨hinv.res_len, ?_, hinv.cursor_le, hinv.fresh, ?_, ?_, ?_⟩ <;> dsimp only
    · rw [List.length_set]
      exact hinv.wk_len
    · intro w2 i hcl
      have hcl2 : (s.workers.set w WStatus.done).get? w2 =
          some (WStatus.working i) := hcl
      rcases get?_set_cases hcl2 with ⟨_, hv, _⟩ | ⟨_, hv⟩
      · cases hv
      · exact hinv.claim_lt w2 i hv
    · intro i hi
      rcases hinv.claimed i hi with ⟨hres, hnone⟩ | ⟨hres, w0, hw0, huniq⟩
      · refine Or.inl ⟨hres, ?_⟩
        intro w2 hcl
        have hcl2 : (s.workers.set w WStatus.done).get? w2 =
            some (WStatus.working i) := hcl
        rcases get?_set_cases hcl2 with ⟨_, hv, _⟩ | ⟨_, hv⟩
        · cases hv
        · exact hnone w2 hv
      · refine Or.inr ⟨hres, w0, ?_, ?_⟩
        · have hne : w0 ≠ w := by
            intro he
            have h2 : s.workers.get? w = some (WStatus.working i) := he ▸ hw0
            rw [hw] at h2
            cases h2
          show (s.workers.set w WStatus.done).get? w0 = some (WStatus.working i)
          exact (List.get?_set_ne _ _ fun he => hne he.symm).trans hw0
        · intro w2 hcl
          have hcl2 : (s.workers.set w WStatus.done).get? w2 =
              some (WStatus.working i) := hcl
          rcases get?_set_cases hcl2 with ⟨_, hv, _⟩ | ⟨_, hv⟩
          · cases hv
          · exact huniq w2 hv
    · intro _
      exact hcn
  | finish w i hw =>
    have hic : i < s.cursor := hinv.claim_lt w i hw
    have hilen : i < s.results.length := by
      have h1 := hinv.res_len
      have h2 := hinv.cursor_le
      omega
    refine ⟨?_, ?_, hinv.cursor_le, ?_, ?_, ?_, ?_⟩ <;> dsimp only
    · rw [List.length_set]
      exact hinv.res_len
    · rw [List.length_set]
      exact hinv.wk_len
    · intro j hj hjn
      rw [List.get?_set_ne _ _ (by omega : i ≠ j)]
      exact hinv.fresh j hj hjn
    · intro w2 j hcl
      have hcl2 : (s.workers.set w WStatus.idle).get? w2 =
          some (WStatus.working j) := hcl
      rcases get?_set_cases hcl2 with ⟨_, hv, _⟩ | ⟨_, hv⟩
      · cases hv
      · exact hinv.claim_lt w2 j hv
    · intro j hj
      by_cases hji : j = i
      · subst hji
        rcases hinv.claimed j hic with ⟨_, hnone⟩ | ⟨_, w0, hw0, huniq⟩
        · exact absurd hw (hnone w)
        · have hww0 : w = w0 := huniq w hw
          subst hww0
          refine Or.inl ⟨List.get?_set_eq_of_lt _ hilen, ?_⟩
          intro w2 hcl
          have hcl2 : (s.workers.set w WStatus.idle).get? w2 =
              some (WStatus.working j) := hcl
          rcases get?_set_cases hcl2 with ⟨_, hv, _⟩ | ⟨hne, hv⟩
          · cases hv
          · exact hne (huniq w2 hv)
      · have hres_same : (s.results.set i (some (resolve i))).get? j = s.results.get? j :=
          List.get?_set_ne _ _ fun he => hji he.symm
        rcases hinv.claimed j hj with ⟨hres, hnone⟩ | ⟨hres, w0, hw0, huniq⟩
        · refine Or.inl ⟨hres_same.trans hres, ?_⟩
          intro w2 hcl
          have hcl2 : (s.workers.set w WStatus.idle).get? w2 =
              some (WStatus.working j) := hcl
          rcases get?_set_cases hcl2 with ⟨_, hv, _⟩ | ⟨_, hv⟩
          · cases hv
          · exact hnone w2 hv
        · refine Or.inr ⟨hres_same.trans hres, w0, ?_, ?_⟩
          · have hne : w0 ≠ w := by
              intro he
              have h2 : s.workers.get? w = some (WStatus.working j) := he ▸ hw0
              rw [hw] at h2
              have h3 : WStatus.working i = WStatus.working j := Option.some.inj h2
              cases h3
              exact hji rfl
            show (s.workers.set w WStatus.idle).get? w0 = some (WStatus.working j)
            exact (List.get?_set_ne _ _ fun he => hne he.symm).trans hw0
          · intro w2 hcl
            have hcl2 : (s.workers.set w WStatus.idle).get? w2 =
                some (WStatus.working j) := hcl
            rcases get?_set_cases hcl2 with ⟨_, hv, _⟩ | ⟨_, hv⟩
            · cases hv
            · exact huniq w2 hv
    · rintro ⟨w2, hw2⟩
      rcases get?_set_cases hw2 with ⟨_, hv, _⟩ | ⟨_, hv⟩
      · cases hv
      · exact hinv.done_cursor ⟨w2, hv⟩

/-- Every reachable pool state satisfies the invariant. -/
theorem poolInv_reach {n : Nat} {resolve : Nat → Outcome} {s : PoolState}
    (hs : PoolReach n resolve s) : PoolInv n resolve s := by
  induction hs with
  | refl => exact poolInv_init n resolve
  | tail _ hstep ih => exact poolInv_step hstep ih

/-- In a terminal reachable pool state (after `Promise.all` resolves),
every result slot below `n` holds the outcome of its own partition. -/
theorem poolDone_results {n : Nat} {resolve : Nat → Outcome} {s : PoolState}
    (hs : PoolReach n resolve s) (hd : PoolDone s) :
    ∀ i, i < n → s.results.get? i = some (some (resolve i)) := by
  have hinv := poolInv_reach hs
  intro i hi
  have hn : 0 < n := by omega
  have hwklen : 0 < s.workers.length := by
    have := hinv.wk_len
    have : min concurrencyLimit n = min 4 n := rfl
    omega
  obtain ⟨w0, hw0⟩ : ∃ w0, s.workers.get? 0 = some w0 := by
    cases hget : s.workers.get? 0 with
    | none =>
      rw [List.get?_eq_none] at hget
      omega
    | some v => exact ⟨v, rfl⟩
  have hw0done : w0 = WStatus.done := hd w0 (List.get?_mem hw0)
  have hcn : s.cursor = n := hinv.done_cursor ⟨0, hw0done ▸ hw0⟩
  rcases hinv.claimed i (by omega) with ⟨hres, _⟩ | ⟨_, w1, hw1, _⟩
  · exact hres
  · have hmem := List.get?_mem hw1
    have := hd _ hmem
    cases this

/-- In a terminal reachable pool state, the `groups` array is exactly
the outcome of partition `i` at position `i`, for `i = 0..n-1`. -/
theorem poolDone_groups {n : Nat} {resolve : Nat → Outcome} {s : PoolState}
    (hs : PoolReach n resolve s) (hd : PoolDone s) :
    groupsOf s = (List.range n).map resolve := by
  have hinv := poolInv_reach hs
  have hres : s.results = (List.range n).map fun i => some (resolve i) := by
    apply List.ext_get?
    intro i
    by_cases hi : i < n
    · rw [poolDone_results hs hd i hi, List.get?_map, List.get?_range hi]
      rfl
    · have h1 : s.results.get? i = none := by
        apply List.get?_len_le
        rw [hinv.res_len]
        omega
      have h2 : ((List.range n).map fun i => some (resolve i)).get? i = none := by
        apply List.get?_len_le
        rw [List.length_map, List.length_range]
        omega
      rw [h1, h2]
  rw [groupsOf, hres, List.filterMap_map]
  have hcomp : (id ∘ fun i => some (resolve i)) = some ∘ resolve := rfl
  rw [hcomp, List.filterMap_eq_map]

/-- The number of groups a terminal reachable pool state reports. -/
theorem poolDone_groups_length {n : Nat} {resolve : Nat → Outcome} {s : PoolState}
    (hs : PoolReach n resolve s) (hd : PoolDone s) :
    (groupsOf s).length = n := by
  rw [poolDone_groups hs hd, List.length_map, List.length_range]

/-- Both outcome shapes written by a worker carry the partition's own
canonical range string as their `range` label. -/
theorem resolvePartition_rangeLabel (f : Nat → FetchOut) (r : String)
    (fa : Bool) (pp : Nat) :
    (resolvePartition f r fa pp).rangeLabel = r := by
  unfold resolvePartition
  cases f 1 with
  | fail st msg => rfl
  | ok te tp orgs =>
    dsimp only
    split <;> rfl

/-- Reading back a list from `getD` over its index range. -/
theorem range_map_getD (l : List String) :
    (List.range l.length).map (fun i => l.getD i "") = l := by
  induction l with
  | nil => rfl
  | cons a t ih =>
    rw [List.length_cons, List.range_succ_eq_map, List.map_cons, List.map_map]
    have h1 : (a :: t).getD 0 "" = a := rfl
    have h2 : ((fun i => (a :: t).getD i "") ∘ Nat.succ) = fun i => t.getD i "" := by
      funext i
      rfl
    rw [h1, h2, ih]

/-- When every page of a partition succeeds, the exhaustive-fetch loop
returns an accumulated list rather than an error. -/
theorem fetchLoop_ok {f : Nat → FetchOut} (hok : ∀ p, (f p).isOk = true) :
    ∀ fuel start acc, ∃ l, fetchLoop f start fuel acc = Except.ok l := by
  intro fuel
  induction fuel with
  | zero =>
    intro start acc
    exact ⟨acc, rfl⟩
  | succ m ih =>
    intro start acc
    cases hf : f start with
    | fail st msg =>
      have := hok start
      rw [hf] at this
      cases this
    | ok te tp orgs =>
      have := ih (start + 1)
        (if (orgs.getD []).length > 0 then acc ++ orgs.getD [] else acc)
      rcases this with ⟨l, hl⟩
      refine ⟨l, ?_⟩
      rw [fetchLoop, hf]
      exact hl

/-- When every remote call of a partition succeeds, the partition's
outcome is a success. -/
theorem resolvePartition_success {f : Nat → FetchOut} {r : String}
    {fa : Bool} {pp : Nat} (hok : ∀ p, (f p).isOk = true) :
    (resolvePartition f r fa pp).isSuccess = true := by
  unfold resolvePartition
  cases hf : f 1 with
  | fail st msg =>
    have := hok 1
    rw [hf] at this
    cases this
  | ok te tp orgs =>
    dsimp only
    split
    · rename_i heq
      split at heq
      · rcases fetchLoop_ok hok ((totalPagesOf tp - 1).toNat) 2 (orgs.getD []) with ⟨l, hl⟩
        rw [hl] at heq
        cases heq
      · cases heq
    · rfl

/-- A partition whose first page throws resolves to the failed outcome
built in the worker's `catch` (`server.js` lines 415–419). -/
theorem resolvePartition_fail_first {f : Nat → FetchOut} {r : String}
    {fa : Bool} {pp : Nat} {st : Option Int} {msg : String}
    (hf : f 1 = FetchOut.fail st msg) :
    resolvePartition f r fa pp = Outcome.failure r (effStatus st) msg := by
  unfold resolvePartition
  rw [hf]

/-- If page `k` is the first later page to throw, the exhaustive-fetch
loop stops there and reports that page's error. -/
theorem fetchLoop_fail {f : Nat → FetchOut} {k : Nat} {st : Option Int}
    {msg : String} (hf : f k = FetchOut.fail st msg) :
    ∀ fuel start acc, start ≤ k → k < start + fuel →
      (∀ p, start ≤ p → p < k → (f p).isOk = true) →
      fetchLoop f start fuel acc = Except.error (st, msg) := by
  intro fuel
  induction fuel with
  | zero =>
    intro start acc h1 h2 _
    omega
  | succ m ih =>
    intro start acc h1 h2 hbef
    by_cases hsk : start = k
    · subst hsk
      rw [fetchLoop, hf]
    · have hlt : start < k := by omega
      have hok := hbef start (le_refl _) hlt
      cases hfs : f start with
      | fail a b =>
        rw [hfs] at hok
        cases hok
      | ok a b c =>
        rw [fetchLoop, hfs]
        exact ih (start + 1) _ (by omega) (by omega) fun p hp1 hp2 => hbef p (by omega) hp2

/-- An outcome that is a success is not a failure. -/
theorem isFailure_false_of_isSuccess {o : Outcome} (h : o.isSuccess = true) :
    o.isFailure = false := by
  cases o with
  | success r t os => rfl
  | failure r st d => cases h

/-- C10: for every request, the effective pagination parameters are
sanitized: the effective page lies in `[1, 500]` (falling back to 1
when the supplied value is not a number), and the effective per-page
lies in `[1, 100]` (falling back to 25 when the supplied value is not
a number). -/
theorem c10_pagination_sanitized (page per_page : Option Int) :
    1 ≤ safePageOf page ∧ safePageOf page ≤ 500 ∧ safePageOf none = 1 ∧
    1 ≤ safePerPageOf per_page ∧ safePerPageOf per_page ≤ 100 ∧
    safePerPageOf none = 25 := by
  unfold safePageOf safePerPageOf clamp
  cases page <;> cases per_page <;>
    refine ⟨?_, ?_, rfl, ?_, ?_, rfl⟩ <;> simp <;> omega

/-- C6: partition query derivation is a pure function of the base
payload (the source's JSON round-trip deep copy means the base object
is never mutated), and the derived query equals the base except that
the top-level and nested min/max employee-count fields are removed, the
partition-range field is set to `[rangeString]` both at top level and
in the nested query sub-object (whose other fields are preserved, and
which is created when absent), and the page/page-size overrides are
applied when present. -/
theorem c6_partition_query_builder (b : Payload) (r : String)
    (po ppo : Option Int) :
    (searchForRangePayload b r po ppo).organization_num_employees_min = none ∧
    (searchForRangePayload b r po ppo).organization_num_employees_max = none ∧
    (searchForRangePayload b r po ppo).organization_num_employees_ranges =
      some [r] ∧
    (searchForRangePayload b r po ppo).rest = b.rest ∧
    (searchForRangePayload b r po ppo).query =
      some ⟨none, none, some [r],
        (match b.query with | some q => q.rest | none => [])⟩ ∧
    (searchForRangePayload b r po ppo).page =
      (match po with | some p => some p | none => b.page) ∧
    (searchForRangePayload b r po ppo).per_page =
      (match ppo with | some p => some p | none => b.per_page) := by
  cases hbq : b.query <;>
    simp [searchForRangePayload, hbq]

/-- C7: when exhaustive fetch is not requested, every successful
group's record list is truncated to at most the requested page size,
whatever the remote API returns. -/
theorem c7_records_truncated_to_page_size (f : Nat → FetchOut)
    (r r2 : String) (pp : Nat) (t : Int) (os : List Record)
    (h : resolvePartition f r false pp = Outcome.success r2 t os) :
    os.length ≤ pp := by
  unfold resolvePartition at h
  cases hf : f 1 with
  | fail st msg =>
    rw [hf] at h
    cases h
  | ok te tp orgs =>
    rw [hf] at h
    simp only [Bool.false_eq_true, false_and, if_false, Outcome.success.injEq] at h
    rcases h with ⟨-, -, h3⟩
    rw [← h3]
    exact List.length_take_le _ _

/-- The fetch oracle for the C2 scenario: page 1 succeeds with records
`[1, 2]` and reports 3 total pages; page 2 throws with HTTP status 503;
page 3 would succeed. -/
def c2wOracle : Nat → FetchOut := fun p =>
  if p = 1 then FetchOut.ok (some 12) (some 3) (some [1, 2])
  else if p = 2 then FetchOut.fail (some 503) "boom"
  else FetchOut.ok none none (some [9])

/-- C2 counterexample: the claim says that when page `k > 1` of an
exhaustive fetch fails after pages `1..k-1` succeeded, the partition's
outcome returns the partial records accumulated so far.  In the code
the `catch` sits at the partition boundary (`server.js` lines 415–419)
and stores `organizations: []`, so the successfully fetched page-1
records `[1, 2]` are discarded and the outcome is a bare failure. -/
theorem c2_partial_records_discarded_cex :
    resolvePartition c2wOracle "1,10" true 25 =
      Outcome.failure "1,10" 503 "boom" ∧
    (resolvePartition c2wOracle "1,10" true 25).orgs = [] ∧
    (resolvePartition c2wOracle "1,10" true 25).orgs ≠ [1, 2] := by
  refine ⟨by decide, by decide, by decide⟩

/-- C2 as amended: if, during an exhaustive fetch whose first page
succeeded, some later page `k ≤ total_pages` throws while all pages
before it succeeded, the partition's fetch terminates early and its
outcome is the failed outcome carrying page `k`'s status and error
detail, with an empty record list — the partial records accumulated
from the successful pages are discarded, not returned. -/
theorem c2_later_page_failure_fails_partition (f : Nat → FetchOut)
    (r : String) (pp : Nat) (te tp : Option Int)
    (orgs : Option (List Record)) (k : Nat) (st : Option Int) (msg : String)
    (h1 : f 1 = FetchOut.ok te tp orgs)
    (hk2 : 2 ≤ k) (hkle : (k : Int) ≤ totalPagesOf tp)
    (hfailk : f k = FetchOut.fail st msg)
    (hbefore : ∀ p, 2 ≤ p → p < k → (f p).isOk = true) :
    resolvePartition f r true pp = Outcome.failure r (effStatus st) msg ∧
    (resolvePartition f r true pp).orgs = [] := by
  have htp : 1 < totalPagesOf tp := by omega
  have hloop : fetchLoop f 2 (totalPagesOf tp - 1).toNat (orgs.getD []) =
      Except.error (st, msg) :=
    fetchLoop_fail hfailk (totalPagesOf tp - 1).toNat 2 (orgs.getD [])
      (by omega) (by omega) hbefore
  have heq : resolvePartition f r true pp =
      Outcome.failure r (effStatus st) msg := by
    unfold resolvePartition
    rw [h1]
    dsimp only
    rw [if_pos ⟨rfl, htp⟩, hloop]
  exact ⟨heq, by rw [heq]; rfl⟩

/-- Witness for the amended C2 theorem at the concrete 3-page oracle. -/
theorem c2_later_page_failure_fails_partition_witness :
    c2wOracle 1 = FetchOut.ok (some 12) (some 3) (some [1, 2]) ∧
    c2wOracle 2 = FetchOut.fail (some 503) "boom" ∧
    resolvePartition c2wOracle "1,10" true 25 =
      Outcome.failure "1,10" (effStatus (some 503)) "boom" ∧
    (resolvePartition c2wOracle "1,10" true 25).orgs = [] :=
  ⟨rfl, rfl,
    (c2_later_page_failure_fails_partition c2wOracle "1,10" 25 (some 12)
      (some 3) (some [1, 2]) 2 (some 503) "boom" rfl (by decide) (by decide)
      rfl (fun p hp1 hp2 => by omega)).1,
    (c2_later_page_failure_fails_partition c2wOracle "1,10" 25 (some 12)
      (some 3) (some [1, 2]) 2 (some 503) "boom" rfl (by decide) (by decide)
      rfl (fun p hp1 hp2 => by omega)).2⟩

/-- C4 counterexample: the claim says the eighth built-in default range
is "10001 with unbounded maximum".  The code's default list
(`server.js` line 386) ends in the literal `'10001,20000'`, whose
maximum component is the bounded numeral 20000. -/
theorem c4_eighth_default_bounded_cex :
    (normalizedOf RangesField.rfMissing).getD 7 "" = "10001,20000" ∧
    jsSplitComma ((normalizedOf RangesField.rfMissing).getD 7 "") =
      ["10001", "20000"] := by
  refine ⟨by decide, by decide⟩

/-- C4 as amended: when the caller supplies no partition descriptors,
the engine uses the built-in default set of eight ranges verbatim and
in its documented order — 1–10, 11–50, 51–200, 201–500, 501–1000,
1001–5000, 5001–10000, and 10001–20000 (the last range bounded at
20000, not unbounded). -/
theorem c4_defaults_used_verbatim :
    inputRangesOf RangesField.rfMissing = defaultRanges.map RangeDesc.rstr ∧
    normalizedOf RangesField.rfMissing =
      ["1,10", "11,50", "51,200", "201,500", "501,1000",
       "1001,5000", "5001,10000", "10001,20000"] := by
  refine ⟨rfl, by decide⟩

/-- C5 counterexample: the claim says every non-numeric descriptor is
dropped and every kept entry is the canonical string of a numeric
min/max pair.  The filter regex `/\d+\s*,\s*\d+/` is unanchored, so the
non-numeric descriptor `"a1,2b"` (min component `a1`, max component
`2b`) is kept verbatim rather than dropped. -/
theorem c5_nonnumeric_descriptor_kept_cex :
    normalizeRangeList [RangeDesc.rstr "a1,2b"] = ["a1,2b"] ∧
    normalizeRangeList [RangeDesc.rstr "a1,2b"] ≠ [] := by
  refine ⟨by decide, by decide⟩

/-- C5 as amended: a descriptor is dropped exactly when it either
matches none of the three accepted shapes or its joined string lacks a
digit-comma-digit substring; a dropped descriptor contributes nothing
while the rest of the batch is still processed in its original relative
order, and a kept descriptor contributes exactly its joined (for
strings: comma-split and part-trimmed) form — which for well-formed
numeric descriptors is the canonical `"min,max"` string, but which is
kept verbatim for non-numeric descriptors whose joined form merely
contains a digit-comma-digit substring. -/
theorem c5_drop_and_keep (xs ys : List RangeDesc) (d : RangeDesc) :
    (keepRange d = none →
      normalizeRangeList (xs ++ d :: ys) =
        normalizeRangeList xs ++ normalizeRangeList ys) ∧
    (∀ c, keepRange d = some c →
      normalizeRangeList (xs ++ d :: ys) =
        normalizeRangeList xs ++ c :: normalizeRangeList ys) := by
  constructor
  · intro h
    simp [normalizeRangeList, List.filterMap_append, List.filterMap_cons, h]
  · intro c h
    simp [normalizeRangeList, List.filterMap_append, List.filterMap_cons, h]

/-- Witness for the amended C5 theorem: the malformed descriptor
`"junk"` is dropped without aborting the valid descriptors on either
side of it. -/
theorem c5_drop_and_keep_witness :
    keepRange (RangeDesc.rstr "junk") = none ∧
    normalizeRangeList
      ([RangeDesc.rstr "1,10"] ++ RangeDesc.rstr "junk" ::
        [RangeDesc.rarr ["2", "5"]]) =
      normalizeRangeList [RangeDesc.rstr "1,10"] ++
        normalizeRangeList [RangeDesc.rarr ["2", "5"]] :=
  ⟨by decide,
    (c5_drop_and_keep [RangeDesc.rstr "1,10"] [RangeDesc.rarr ["2", "5"]]
      (RangeDesc.rstr "junk")).1 (by decide)⟩

/-- C9 counterexample: the claim says the built-in defaults are applied
only when `ranges` is missing or an empty array.  A supplied `ranges`
value that is not an array at all (for instance the string a GET query
parameter produces) is neither missing nor an empty array, yet
`Array.isArray(ranges)` is false and the defaults are applied. -/
theorem c9_defaults_on_nonarray_cex :
    normalizedOf RangesField.rfOther = defaultRanges ∧
    RangesField.rfOther ≠ RangesField.rfMissing ∧
    RangesField.rfOther ≠ RangesField.rfArr [] := by
  refine ⟨by decide, by decide, by decide⟩

/-- C1: for every request with a valid prompt and any set of partition
descriptors, in every terminal state of the worker pool — i.e. under
every interleaving of concurrent workers — the returned `groups` list
has exactly one element per normalized partition, and the element at
position `i` carries the partition label `normalized[i]`: output order
equals the normalized input order, independent of completion order. -/
theorem c1_groups_match_normalized_order (pr : PromptField) (rf : RangesField)
    (f : Nat → Nat → FetchOut) (fa : Bool) (pp : Nat) (s : PoolState)
    (hpr : promptValid pr = true)
    (hs : PoolReach (normalizedOf rf).length
      (engineResolve f (normalizedOf rf) fa pp) s)
    (hd : PoolDone s) :
    (groupsOf s).length = (normalizedOf rf).length ∧
    (groupsOf s).map Outcome.rangeLabel = normalizedOf rf := by
  refine ⟨poolDone_groups_length hs hd, ?_⟩
  rw [poolDone_groups hs hd, List.map_map]
  have hcomp : (Outcome.rangeLabel ∘ engineResolve f (normalizedOf rf) fa pp) =
      fun i => (normalizedOf rf).getD i "" := by
    funext i
    exact resolvePartition_rangeLabel _ _ _ _
  rw [hcomp, range_map_getD]

/-- The fetch oracle for the C1 witness: every call succeeds. -/
def c1wOracle : Nat → Nat → FetchOut := fun _ _ =>
  FetchOut.ok (some 1) (some 1) (some [5])

/-- The normalized partition list of the C1 witness request. -/
def c1wNorm : List String :=
  normalizedOf (RangesField.rfArr [RangeDesc.rstr "1,10"])

/-- The resolver of the C1 witness request. -/
def c1wResolve : Nat → Outcome := engineResolve c1wOracle c1wNorm false 25

/-- C1 witness trace, after the single worker claims partition 0. -/
def c1wS1 : PoolState := ⟨1, [none], [WStatus.working 0]⟩

/-- C1 witness trace, after the worker stores partition 0's outcome. -/
def c1wS2 : PoolState := ⟨1, [some (c1wResolve 0)], [WStatus.idle]⟩

/-- C1 witness trace, after the worker finds the cursor exhausted. -/
def c1wS3 : PoolState := ⟨1, [some (c1wResolve 0)], [WStatus.done]⟩

/-- The C1 witness terminal state has no unfinished worker. -/
theorem c1w_done : PoolDone c1wS3 :=
  fun _ hw => List.mem_singleton.mp hw

/-- The C1 witness terminal state is reachable. -/
theorem c1w_reach : PoolReach c1wNorm.length c1wResolve c1wS3 := by
  have h1 : PoolStep c1wNorm.length c1wResolve (poolInit c1wNorm.length) c1wS1 :=
    PoolStep.claim (poolInit c1wNorm.length) 0 rfl (by decide)
  have h2 : PoolStep c1wNorm.length c1wResolve c1wS1 c1wS2 :=
    PoolStep.finish c1wS1 0 0 rfl
  have h3 : PoolStep c1wNorm.length c1wResolve c1wS2 c1wS3 :=
    PoolStep.halt c1wS2 0 rfl (by decide)
  exact ((Relation.ReflTransGen.single h1).trans
    (Relation.ReflTransGen.single h2)).trans (Relation.ReflTransGen.single h3)

/-- Witness for C1 at a concrete one-partition request and a concrete
complete schedule. -/
theorem c1_groups_match_normalized_order_witness :
    promptValid (PromptField.pstr "solar companies") = true ∧
    (groupsOf c1wS3).length = c1wNorm.length ∧
    (groupsOf c1wS3).map Outcome.rangeLabel = c1wNorm :=
  ⟨by decide,
    (c1_groups_match_normalized_order (PromptField.pstr "solar companies")
      (RangesField.rfArr [RangeDesc.rstr "1,10"]) c1wOracle false 25 c1wS3
      (by decide) c1w_reach c1w_done).1,
    (c1_groups_match_normalized_order (PromptField.pstr "solar companies")
      (RangesField.rfArr [RangeDesc.rstr "1,10"]) c1wOracle false 25 c1wS3
      (by decide) c1w_reach c1w_done).2⟩

/-- C8: in every reachable pool state, at most `concurrencyLimit`
(4 in the code) partitions are in flight; every claimed index comes
from below the shared cursor and the index range below the cursor is
exactly the set of written-or-claimed indices (claims are taken in list
order); no index is claimed by two workers; and once every worker has
returned every partition index holds its own resolved outcome. -/
theorem c8_worker_pool_discipline (n : Nat) (resolve : Nat → Outcome)
    (s : PoolState) (hs : PoolReach n resolve s) :
    inFlight s ≤ concurrencyLimit ∧
    (∀ w i, claimedBy s w i → i < s.cursor ∧ i < n) ∧
    (∀ i, i < s.cursor →
      s.results.get? i = some (some (resolve i)) ∨ ∃ w, claimedBy s w i) ∧
    (∀ w1 w2 i, claimedBy s w1 i → claimedBy s w2 i → w1 = w2) ∧
    (PoolDone s → ∀ i, i < n → s.results.get? i = some (some (resolve i))) := by
  have hinv := poolInv_reach hs
  refine ⟨?_, ?_, ?_, ?_, fun hd => poolDone_results hs hd⟩
  · calc inFlight s ≤ s.workers.length := List.length_filter_le _ _
      _ = min concurrencyLimit n := hinv.wk_len
      _ ≤ concurrencyLimit := Nat.min_le_left _ _
  · intro w i hcl
    have h1 := hinv.claim_lt w i hcl
    have h2 := hinv.cursor_le
    exact ⟨h1, by omega⟩
  · intro i hi
    rcases hinv.claimed i hi with ⟨hres, _⟩ | ⟨_, w0, hw0, _⟩
    · exact Or.inl hres
    · exact Or.inr ⟨w0, hw0⟩
  · intro w1 w2 i h1 h2
    have hlt := hinv.claim_lt w1 i h1
    rcases hinv.claimed i hlt with ⟨_, hnone⟩ | ⟨_, w0, _, huniq⟩
    · exact absurd h1 (hnone w1)
    · rw [huniq w1 h1, huniq w2 h2]

/-- The resolver used by the C8 witness. -/
def c8wResolve : Nat → Outcome := fun _ => Outcome.success "1,10" 0 []

/-- Witness for C8 at the (reachable) initial state of an 8-partition
pool. -/
theorem c8_worker_pool_discipline_witness :
    inFlight (poolInit 8) ≤ concurrencyLimit :=
  (c8_worker_pool_discipline 8 c8wResolve (poolInit 8)
    Relation.ReflTransGen.refl).1

/-- C3: if resolving exactly one partition `j` throws (here: its first
remote call fails, as transport failures, non-2xx responses and
timeouts do) while every remote call of every other partition succeeds,
then in every terminal pool state the aggregate holds exactly one
failed outcome, located at index `j` and carrying the thrown status
code (with the `|| 500` fallback) and error detail, while every other
position holds a success; the labels still follow the original
partition order, so the siblings' results are unaffected. -/
theorem c3_single_failure_isolated (norm : List String)
    (f : Nat → Nat → FetchOut) (fa : Bool) (pp : Nat) (j : Nat)
    (st : Option Int) (msg : String) (s : PoolState)
    (hj : j < norm.length)
    (hfail : f j 1 = FetchOut.fail st msg)
    (hok : ∀ i, i ≠ j → ∀ p, (f i p).isOk = true)
    (hs : PoolReach norm.length (engineResolve f norm fa pp) s)
    (hd : PoolDone s) :
    (groupsOf s).length = norm.length ∧
    (groupsOf s).getD j (Outcome.failure "" 0 "") =
      Outcome.failure (norm.getD j "") (effStatus st) msg ∧
    (groupsOf s).countP Outcome.isFailure = 1 ∧
    (groupsOf s).map Outcome.rangeLabel = norm := by
  have hg := poolDone_groups hs hd
  have hresj : engineResolve f norm fa pp j =
      Outcome.failure (norm.getD j "") (effStatus st) msg :=
    resolvePartition_fail_first hfail
  have hressucc : ∀ i, i ≠ j →
      (engineResolve f norm fa pp i).isSuccess = true := fun i hi =>
    resolvePartition_success (hok i hi)
  refine ⟨poolDone_groups_length hs hd, ?_, ?_, ?_⟩
  · rw [hg]
    have hget : ((List.range norm.length).map
        (engineResolve f norm fa pp)).get? j =
        some (engineResolve f norm fa pp j) := by
      rw [List.get?_map, List.get?_range hj]
      rfl
    have hD : ((List.range norm.length).map
        (engineResolve f norm fa pp)).getD j (Outcome.failure "" 0 "") =
        (((List.range norm.length).map
          (engineResolve f norm fa pp)).get? j).getD
            (Outcome.failure "" 0 "") := rfl
    rw [hD, hget]
    exact hresj
  · rw [hg, List.countP_map]
    have hcongr : ∀ i ∈ List.range norm.length,
        ((Outcome.isFailure ∘ engineResolve f norm fa pp) i = true ↔
          (i == j) = true) := by
      intro i _
      by_cases hij : i = j
      · subst hij
        simp [Function.comp, hresj, Outcome.isFailure]
      · have hsucc := hressucc i hij
        have hfls := isFailure_false_of_isSuccess hsucc
        simp [Function.comp, hfls, hij]
    rw [List.countP_congr hcongr]
    have hcnt : (List.range norm.length).countP (fun i => i == j) =
        (List.range norm.length).count j := rfl
    rw [hcnt]
    exact List.count_eq_one_of_mem (List.nodup_range norm.length)
      (List.mem_range.mpr hj)
  · rw [hg, List.map_map]
    have hcomp : (Outcome.rangeLabel ∘ engineResolve f norm fa pp) =
        fun i => norm.getD i "" := by
      funext i
      exact resolvePartition_rangeLabel _ _ _ _
    rw [hcomp, range_map_getD]

/-- The fetch oracle of the C3 witness: every call of partition 0
throws with HTTP status 404; every call of any other partition
succeeds. -/
def c3wOracle : Nat → Nat → FetchOut := fun i _ =>
  if i = 0 then FetchOut.fail (some 404) "boom"
  else FetchOut.ok (some 1) (some 1) (some [7])

/-- The normalized partition list of the C3 witness request. -/
def c3wNorm : List String := ["1,10", "11,50"]

/-- The resolver of the C3 witness request. -/
def c3wResolve : Nat → Outcome := engineResolve c3wOracle c3wNorm false 25

/-- C3 witness trace: worker 0 claims partition 0. -/
def c3wS1 : PoolState := ⟨1, [none, none], [WStatus.working 0, WStatus.idle]⟩

/-- C3 witness trace: worker 1 claims partition 1. -/
def c3wS2 : PoolState :=
  ⟨2, [none, none], [WStatus.working 0, WStatus.working 1]⟩

/-- C3 witness trace: worker 0 stores partition 0's failed outcome. -/
def c3wS3 : PoolState :=
  ⟨2, [some (c3wResolve 0), none], [WStatus.idle, WStatus.working 1]⟩

/-- C3 witness trace: worker 1 stores partition 1's outcome. -/
def c3wS4 : PoolState :=
  ⟨2, [some (c3wResolve 0), some (c3wResolve 1)],
    [WStatus.idle, WStatus.idle]⟩

/-- C3 witness trace: worker 0 finds the cursor exhausted. -/
def c3wS5 : PoolState :=
  ⟨2, [some (c3wResolve 0), some (c3wResolve 1)],
    [WStatus.done, WStatus.idle]⟩

/-- C3 witness trace: worker 1 finds the cursor exhausted. -/
def c3wS6 : PoolState :=
  ⟨2, [some (c3wResolve 0), some (c3wResolve 1)],
    [WStatus.done, WStatus.done]⟩

/-- The C3 witness terminal state is reachable. -/
theorem c3w_reach : PoolReach c3wNorm.length c3wResolve c3wS6 := by
  have h1 : PoolStep c3wNorm.length c3wResolve (poolInit c3wNorm.length) c3wS1 :=
    PoolStep.claim (poolInit c3wNorm.length) 0 rfl (by decide)
  have h2 : PoolStep c3wNorm.length c3wResolve c3wS1 c3wS2 :=
    PoolStep.claim c3wS1 1 rfl (by decide)
  have h3 : PoolStep c3wNorm.length c3wResolve c3wS2 c3wS3 :=
    PoolStep.finish c3wS2 0 0 rfl
  have h4 : PoolStep c3wNorm.length c3wResolve c3wS3 c3wS4 :=
    PoolStep.finish c3wS3 1 1 rfl
  have h5 : PoolStep c3wNorm.length c3wResolve c3wS4 c3wS5 :=
    PoolStep.halt c3wS4 0 rfl (by decide)
  have h6 : PoolStep c3wNorm.length c3wResolve c3wS5 c3wS6 :=
    PoolStep.halt c3wS5 1 rfl (by decide)
  exact (((((Relation.ReflTransGen.single h1).trans
    (Relation.ReflTransGen.single h2)).trans
    (Relation.ReflTransGen.single h3)).trans
    (Relation.ReflTransGen.single h4)).trans
    (Relation.ReflTransGen.single h5)).trans
    (Relation.ReflTransGen.single h6)

/-- The C3 witness terminal state has no unfinished worker. -/
theorem c3w_done : PoolDone c3wS6 := by
  intro w hw
  have hw2 : w ∈ [WStatus.done, WStatus.done] := hw
  rcases hw2 with _ | ⟨_, h⟩
  · rfl
  · exact List.mem_singleton.mp h

/-- Every call of a nonzero partition of the C3 witness oracle
succeeds. -/
theorem c3w_ok : ∀ i, i ≠ 0 → ∀ p, (c3wOracle i p).isOk = true := by
  intro i hi p
  simp [c3wOracle, hi, FetchOut.isOk]

/-- Witness for C3 at a concrete two-partition request whose partition
0 fails, under a concrete complete schedule. -/
theorem c3_single_failure_isolated_witness :
    c3wOracle 0 1 = FetchOut.fail (some 404) "boom" ∧
    (groupsOf c3wS6).length = c3wNorm.length ∧
    (groupsOf c3wS6).getD 0 (Outcome.failure "" 0 "") =
      Outcome.failure (c3wNorm.getD 0 "") (effStatus (some 404)) "boom" ∧
    (groupsOf c3wS6).countP Outcome.isFailure = 1 ∧
    (groupsOf c3wS6).map Outcome.rangeLabel = c3wNorm :=
  ⟨rfl,
    (c3_single_failure_isolated c3wNorm c3wOracle false 25 0 (some 404)
      "boom" c3wS6 (by decide) rfl c3w_ok c3w_reach c3w_done).1,
    (c3_single_failure_isolated c3wNorm c3wOracle false 25 0 (some 404)
      "boom" c3wS6 (by decide) rfl c3w_ok c3w_reach c3w_done).2.1,
    (c3_single_failure_isolated c3wNorm c3wOracle false 25 0 (some 404)
      "boom" c3wS6 (by decide) rfl c3w_ok c3w_reach c3w_done).2.2.1,
    (c3_single_failure_isolated c3wNorm c3wOracle false 25 0 (some 404)
      "boom" c3wS6 (by decide) rfl c3w_ok c3w_reach c3w_done).2.2.2⟩

/-- C9 as amended: a non-empty `ranges` array all of whose descriptors
fail normalization is used as supplied (no fallback to the defaults),
its normalized partition list is empty, and every terminal pool state
reports zero groups; the built-in defaults are applied exactly when
`ranges` is not a non-empty array — missing, a non-array value, or an
empty array. -/
theorem c9_all_invalid_ranges_zero_groups (xs : List RangeDesc)
    (f : Nat → Nat → FetchOut) (fa : Bool) (pp : Nat) (s : PoolState)
    (hne : xs ≠ [])
    (hbad : ∀ d ∈ xs, keepRange d = none)
    (hs : PoolReach (normalizedOf (RangesField.rfArr xs)).length
      (engineResolve f (normalizedOf (RangesField.rfArr xs)) fa pp) s)
    (hd : PoolDone s) :
    inputRangesOf (RangesField.rfArr xs) = xs ∧
    normalizedOf (RangesField.rfArr xs) = [] ∧
    groupsOf s = [] ∧
    inputRangesOf (RangesField.rfArr []) = defaultRanges.map RangeDesc.rstr ∧
    inputRangesOf RangesField.rfMissing = defaultRanges.map RangeDesc.rstr ∧
    inputRangesOf RangesField.rfOther = defaultRanges.map RangeDesc.rstr := by
  have hlen : xs.length > 0 := List.length_pos.mpr hne
  have hin : inputRangesOf (RangesField.rfArr xs) = xs := by
    simp [inputRangesOf, hlen]
  have hnorm : normalizedOf (RangesField.rfArr xs) = [] := by
    rw [normalizedOf, hin, normalizeRangeList]
    exact List.filterMap_eq_nil_iff.mpr hbad
  have hgroups := poolDone_groups hs hd
  refine ⟨hin, hnorm, ?_, rfl, rfl, rfl⟩
  rw [hgroups, hnorm]
  rfl

/-- The fetch oracle of the C9 witness (never reached: zero
partitions). -/
def c9wOracle : Nat → Nat → FetchOut := fun _ _ => FetchOut.fail none "down"

/-- Witness for the amended C9 theorem: a one-element all-invalid
`ranges` array yields an empty normalized list and zero groups (the
zero-partition pool is terminal at its initial state). -/
theorem c9_all_invalid_ranges_zero_groups_witness :
    ([RangeDesc.rstr "abc"] : List RangeDesc) ≠ [] ∧
    keepRange (RangeDesc.rstr "abc") = none ∧
    inputRangesOf (RangesField.rfArr [RangeDesc.rstr "abc"]) =
      [RangeDesc.rstr "abc"] ∧
    normalizedOf (RangesField.rfArr [RangeDesc.rstr "abc"]) = [] ∧
    groupsOf (poolInit
      (normalizedOf (RangesField.rfArr [RangeDesc.rstr "abc"])).length) = [] :=
  ⟨by decide, by decide,
    (c9_all_invalid_ranges_zero_groups [RangeDesc.rstr "abc"] c9wOracle
      false 25 (poolInit
        (normalizedOf (RangesField.rfArr [RangeDesc.rstr "abc"])).length)
      (by decide) (by decide) Relation.ReflTransGen.refl
      (fun w hw => absurd hw (List.not_mem_nil w))).1,
    (c9_all_invalid_ranges_zero_groups [RangeDesc.rstr "abc"] c9wOracle
      false 25 (poolInit
        (normalizedOf (RangesField.rfArr [RangeDesc.rstr "abc"])).length)
      (by decide) (by decide) Relation.ReflTransGen.refl
      (fun w hw => absurd hw (List.not_mem_nil w))).2.1,
    (c9_all_invalid_ranges_zero_groups [RangeDesc.rstr "abc"] c9wOracle
      false 25 (poolInit
        (normalizedOf (RangesField.rfArr [RangeDesc.rstr "abc"])).length)
      (by decide) (by decide) Relation.ReflTransGen.refl
      (fun w hw => absurd hw (List.not_mem_nil w))).2.2.1⟩

/-- The fetch oracle of the C7 witness: the remote returns five records
for page 1 even though only three were requested. -/
def c7wOracle : Nat → FetchOut := fun _ =>
  FetchOut.ok (some 9) (some 1) (some [1, 2, 3, 4, 5])

/-- Witness for C7: with `fetch_all` unset and a requested page size of
3, the group keeps only the first three of the five returned records. -/
theorem c7_records_truncated_to_page_size_witness :
    resolvePartition c7wOracle "1,10" false 3 =
      Outcome.success "1,10" 9 [1, 2, 3] ∧
    ([1, 2, 3] : List Record).length ≤ 3 :=
  ⟨by decide,
    c7_records_truncated_to_page_size c7wOracle "1,10" "1,10" 3 9 [1, 2, 3]
      (by decide)⟩
